import Mathlib

/-!
Shallow embedding of the ATS résumé-screening pipeline
(`src/tools/jd_parser.py`, `src/agents/coordinator.py`,
`src/agents/jd_processor.py`, `src/agents/resume_processor.py`,
`src/workflows/ats_workflow.py`).

Text is modelled as `List Char`.  Python semantics that matter here:
`str.strip`, `str.splitlines`, `re.sub(r"\s+", " ", ·)`, `str.replace`,
and the specific `re` patterns used by the score parser and the section
splitter, each hand-compiled to an explicit matcher with Python's
leftmost-match / greedy-with-backtracking behaviour.
Scores and thresholds are exact rationals (every score the code produces
is `float(d)` for a 1–3 digit integer `d`, then clamped, so `ℚ` is exact).
-/

namespace ATS

/-- Python whitespace (`str.isspace`, regex `\s` on `str`): ASCII whitespace,
the C1 information separators 0x1c–0x1f, NEL (0x85), NBSP (0xa0), and the
Unicode space characters (Ogham space 0x1680, 0x2000–0x200a, line/paragraph
separators 0x2028/0x2029, 0x202f, 0x205f, ideographic space 0x3000). -/
def isPySpace (c : Char) : Bool :=
  c = ' ' || c = '\t' || c = '\n' || c = '\x0b' || c = '\x0c' || c = '\x0d' ||
  c = '\x1c' || c = '\x1d' || c = '\x1e' || c = '\x1f' || c = '\x85' ||
  c = '\xa0' || c.toNat = 0x1680 ||
  (0x2000 ≤ c.toNat && c.toNat ≤ 0x200a) ||
  c.toNat = 0x2028 || c.toNat = 0x2029 || c.toNat = 0x202f ||
  c.toNat = 0x205f || c.toNat = 0x3000

/-- The characters at which Python `str.splitlines` breaks a line:
\n, \r, \v, \f, the separators 0x1c–0x1e, NEL (0x85), LINE SEPARATOR
(0x2028) and PARAGRAPH SEPARATOR (0x2029); `\r\n` counts as one break. -/
def isLineBreak (c : Char) : Bool :=
  c = '\n' || c = '\x0d' || c = '\x0b' || c = '\x0c' ||
  c = '\x1c' || c = '\x1d' || c = '\x1e' || c = '\x85' ||
  c.toNat = 0x2028 || c.toNat = 0x2029

theorem lineBreak_isPySpace {c : Char} (h : isLineBreak c = true) :
    isPySpace c = true := by
  simp only [isLineBreak, Bool.or_eq_true, decide_eq_true_eq] at h
  simp only [isPySpace, Bool.or_eq_true, decide_eq_true_eq]
  casesm* _ ∨ _ <;> simp_all

theorem length_dropWhile_le (p : Char → Bool) (cs : List Char) :
    (cs.dropWhile p).length ≤ cs.length := by
  induction cs with
  | nil => simp [List.dropWhile]
  | cons c cs ih => by_cases h : p c <;> simp [List.dropWhile, h] <;> omega

/-- Python `str.strip()` from the left. -/
def lstrip (cs : List Char) : List Char := cs.dropWhile isPySpace

/-- Python `str.strip()` from the right. -/
def rstrip (cs : List Char) : List Char := (cs.reverse.dropWhile isPySpace).reverse

/-- Python `str.strip()` with no arguments. -/
def pyStrip (cs : List Char) : List Char := rstrip (lstrip cs)

/-- Embeds `re.sub(r"\s+", " ", text)` one character at a time: the flag records
whether the previous character was whitespace (i.e. we are inside a run);
a run's first whitespace character emits a single `' '`, the rest of the
run emits nothing. -/
def collapseGo : Bool → List Char → List Char
  | _, [] => []
  | inRun, c :: cs =>
    if isPySpace c then
      if inRun then collapseGo true cs else ' ' :: collapseGo true cs
    else c :: collapseGo false cs

/-- Embeds `re.sub(r"\s+", " ", text)`: every maximal run of whitespace becomes a
single ASCII space. -/
def collapseWs (cs : List Char) : List Char := collapseGo false cs

/-- Python single-character `str.replace(old, new)` (`new` may be several
characters or empty). -/
def replace1 (old : Char) (new : List Char) (cs : List Char) : List Char :=
  cs.flatMap (fun c => if c = old then new else [c])

/-- The glyph keys of `clean_text`'s replacement dictionary, in insertion
order: 0xf0b7 (private-use bullet), 0x2022 •, 0x25cf ●, 0x200b zero-width
space, 0x2013 en dash, 0x2014 em dash, 0x2018 and 0x2019 curly quotes. -/
def glyphTable : List (Char × List Char) :=
  [ (Char.ofNat 0xf0b7, ['-']), (Char.ofNat 0x2022, ['-']),
    (Char.ofNat 0x25cf, ['-']), (Char.ofNat 0x200b, []),
    (Char.ofNat 0x2013, ['-']), (Char.ofNat 0x2014, ['-', '-']),
    (Char.ofNat 0x2018, ['\'']), (Char.ofNat 0x2019, ['\'']) ]

/-- The typographic substitutions of `clean_text` (`src/tools/jd_parser.py`),
applied sequentially in the dictionary's insertion order. -/
def replaceGlyphs (cs : List Char) : List Char :=
  glyphTable.foldl (fun acc p => replace1 p.1 p.2 acc) cs

/-- Embeds `clean_text` (`src/tools/jd_parser.py` lines 35–54): glyph substitutions,
then `re.sub(r"\s+", " ", text).strip()`. -/
def clean_text (cs : List Char) : List Char :=
  pyStrip (collapseWs (replaceGlyphs cs))

/-- Helper for `pySplitlines`: cut the text at line-break characters,
treating `\r\n` as one break; the final (possibly empty) segment is kept. -/
def splitlinesAux : List Char → List Char → List (List Char)
  | acc, [] => [acc.reverse]
  | acc, c :: cs =>
    if c = '\x0d' then
      match cs with
      | '\n' :: cs2 => acc.reverse :: splitlinesAux [] cs2
      | [] => [acc.reverse, []]
      | c2 :: cs2 => acc.reverse :: splitlinesAux [] (c2 :: cs2)
    else if isLineBreak c then acc.reverse :: splitlinesAux [] cs
    else splitlinesAux (c :: acc) cs

/-- Python `str.splitlines()`. -/
def pySplitlines (cs : List Char) : List (List Char) :=
  if cs = [] then []
  else
    let segs := splitlinesAux [] cs
    if cs.getLast? |>.any isLineBreak then segs.dropLast else segs

/-! ### Score parser (`Coordinator._parse_score_from_response`,
`src/agents/coordinator.py` lines 175–203)

Each of the five `re` patterns is hand-compiled to a matcher
`Option Char → List Char → Option Nat` (previous character for `\b`,
text at the candidate match position, captured group).  `re.search`
semantics: candidate start positions are tried left to right and the
first position at which the pattern matches wins.  Greedy `\d{1,3}` with
backtracking reduces, for these patterns, to: the maximal digit run at
the position must have length 1–3 (a longer run leaves a digit after any
shorter take, and every pattern requires a non-digit continuation).
`\d` and `\w` are modelled over ASCII. -/

/-- Match a literal, returning the remaining text. -/
def dropLit : List Char → List Char → Option (List Char)
  | [], cs => some cs
  | _ :: _, [] => none
  | l :: ls, c :: cs => if c = l then dropLit ls cs else none

/-- Regex `\w` (ASCII model): letters, digits, underscore. -/
def isWordC (c : Char) : Bool := c.isAlphanum || c = '_'

/-- Boundary `\b` before a word character: start of text or a non-word character. -/
def boundaryBefore : Option Char → Bool
  | none => true
  | some c => !isWordC c

/-- Boundary `\b` after a word character: end of text or a non-word character. -/
def boundaryAfter : List Char → Bool
  | [] => true
  | c :: _ => !isWordC c

/-- Numeric value of a digit run (`int(match.group(1))` via `float`). -/
def digitsVal (ds : List Char) : Nat :=
  ds.foldl (fun a c => 10 * a + (c.toNat - 48)) 0

/-- Pattern `r"Score:\s*(\d{1,3})/100"` at one position. -/
def p1At (_ : Option Char) (cs : List Char) : Option Nat :=
  match dropLit "Score:".toList cs with
  | none => none
  | some cs1 =>
    let cs2 := cs1.dropWhile isPySpace
    let ds := cs2.takeWhile Char.isDigit
    let rest := cs2.dropWhile Char.isDigit
    if 1 ≤ ds.length && ds.length ≤ 3 && (dropLit "/100".toList rest).isSome then
      some (digitsVal ds)
    else none

/-- Pattern `r"\bFinal Score:\s*(\d{1,3})\b"` at one position. -/
def p2At (prev : Option Char) (cs : List Char) : Option Nat :=
  if boundaryBefore prev then
    match dropLit "Final Score:".toList cs with
    | none => none
    | some cs1 =>
      let cs2 := cs1.dropWhile isPySpace
      let ds := cs2.takeWhile Char.isDigit
      let rest := cs2.dropWhile Char.isDigit
      if 1 ≤ ds.length && ds.length ≤ 3 && boundaryAfter rest then
        some (digitsVal ds)
      else none
  else none

/-- Pattern `r"\b(\d{1,3})\s*out of 100\b"` at one position. -/
def p3At (prev : Option Char) (cs : List Char) : Option Nat :=
  if boundaryBefore prev then
    let ds := cs.takeWhile Char.isDigit
    let rest := cs.dropWhile Char.isDigit
    if 1 ≤ ds.length && ds.length ≤ 3 then
      match dropLit "out of 100".toList (rest.dropWhile isPySpace) with
      | none => none
      | some rest2 => if boundaryAfter rest2 then some (digitsVal ds) else none
    else none
  else none

/-- Pattern `r"\b(\d{1,3})\s*/\s*100\b"` at one position. -/
def p4At (prev : Option Char) (cs : List Char) : Option Nat :=
  if boundaryBefore prev then
    let ds := cs.takeWhile Char.isDigit
    let rest := cs.dropWhile Char.isDigit
    if 1 ≤ ds.length && ds.length ≤ 3 then
      match dropLit "/".toList (rest.dropWhile isPySpace) with
      | none => none
      | some rest2 =>
        match dropLit "100".toList (rest2.dropWhile isPySpace) with
        | none => none
        | some rest3 => if boundaryAfter rest3 then some (digitsVal ds) else none
    else none
  else none

/-- Pattern `r"\b(\d{1,3})\b(?!.*\d)"` at one position: a 1–3 digit standalone
integer with no later digit before the next newline (`.` in the negative
lookahead does not cross `\n`). -/
def p5At (prev : Option Char) (cs : List Char) : Option Nat :=
  if boundaryBefore prev then
    let ds := cs.takeWhile Char.isDigit
    let rest := cs.dropWhile Char.isDigit
    if 1 ≤ ds.length && ds.length ≤ 3 && boundaryAfter rest &&
        !((rest.takeWhile (· ≠ '\n')).any Char.isDigit) then
      some (digitsVal ds)
    else none
  else none

/-- Embeds `re.search`: try the matcher at each start position, left to right. -/
def searchGo (m : Option Char → List Char → Option Nat) :
    Option Char → List Char → Option Nat
  | prev, [] => m prev []
  | prev, c :: cs =>
    match m prev (c :: cs) with
    | some n => some n
    | none => searchGo m (some c) cs

/-- Embeds `re.search(pattern, text)` for one of the five patterns. -/
def reSearch (m : Option Char → List Char → Option Nat) (cs : List Char) :
    Option Nat :=
  searchGo m none cs

/-- The ordered pattern list of `_parse_score_from_response`. -/
def scorePatterns : List (Option Char → List Char → Option Nat) :=
  [p1At, p2At, p3At, p4At, p5At]

/-- The `for pattern in patterns` loop: first pattern with a match wins. -/
def firstPatternMatch : List (Option Char → List Char → Option Nat) →
    List Char → Option Nat
  | [], _ => none
  | m :: ms, cs =>
    match reSearch m cs with
    | some n => some n
    | none => firstPatternMatch ms cs

/-- Embeds `max(0, min(100, score))`. -/
def clampScore (n : Nat) : ℚ := max 0 (min 100 (n : ℚ))

/-- Embeds `Coordinator._parse_score_from_response`: first matching pattern's
group, clamped into `[0, 100]`; `0.0` when no pattern matches. -/
def parse_score_from_response (s : String) : ℚ :=
  match firstPatternMatch scorePatterns s.toList with
  | some n => clampScore n
  | none => 0

/-! ### Job-description parser (`src/tools/jd_parser.py`) -/

/-- Case-insensitive literal match (ASCII case folding, as for the
all-ASCII header and category literals under `re.IGNORECASE`). -/
def dropLitCI : List Char → List Char → Option (List Char)
  | [], cs => some cs
  | _ :: _, [] => none
  | l :: ls, c :: cs => if c.toLower = l.toLower then dropLitCI ls cs else none

/-- The recognized section headers, in the alternation order of
`split_sections` (no header is a prefix of another). -/
def headerLits : List String :=
  ["JOB TITLE:", "LOCATION:", "EMPLOYMENT TYPE:", "COMPANY DESCRIPTION:",
   "KEY RESPONSIBILITIES:", "REQUIRED QUALIFICATIONS:", "PREFERRED SKILLS:",
   "TECH STACK:", "BENEFITS:", "HOW TO APPLY:"]

/-- Embeds `header.strip().rstrip(":").lower()` applied to a header literal. -/
def canonHeader (h : String) : String :=
  String.mk (((h.toList.reverse.dropWhile (· = ':')).reverse).map Char.toLower)

/-- Try the header alternatives in order at one position. -/
def tryHeaders : List String → List Char → Option (String × List Char)
  | [], _ => none
  | h :: hs, cs =>
    match dropLitCI h.toList cs with
    | some rest => some (canonHeader h, rest)
    | none => tryHeaders hs cs

/-- Embeds `re.finditer` over the header alternation: walk the text, emitting
matched headers and the characters between them. -/
def tokenize : Nat → List Char → List (String ⊕ Char)
  | 0, _ => []
  | _, [] => []
  | fuel + 1, c :: cs =>
    match tryHeaders headerLits (c :: cs) with
    | some (h, rest) => Sum.inl h :: tokenize fuel rest
    | none => Sum.inr c :: tokenize fuel cs

theorem length_dropWhile_le_poly {α : Type} (p : α → Bool) (cs : List α) :
    (cs.dropWhile p).length ≤ cs.length := by
  induction cs with
  | nil => simp [List.dropWhile]
  | cons c cs ih => by_cases h : p c <;> simp [List.dropWhile, h] <;> omega

/-- Accumulate the current header's content until the next header (or the
end of the text). -/
def gatherGo : String → List Char → List (String ⊕ Char) → List (String × List Char)
  | h, acc, [] => [(h, acc.reverse)]
  | h, acc, .inr c :: ts => gatherGo h (c :: acc) ts
  | h, acc, .inl h2 :: ts => (h, acc.reverse) :: gatherGo h2 [] ts

/-- Group each header's content: from the end of a header to the start of
the next one (text before the first header is discarded, as in the code). -/
def gatherSections : List (String ⊕ Char) → List (String × List Char)
  | [] => []
  | .inr _ :: ts => gatherSections ts
  | .inl h :: ts => gatherGo h [] ts

/-- Association-list write with Python-`dict` semantics: an existing key
keeps its position and gets the new value, a new key is appended. -/
def alistSet {α : Type} (m : List (String × α)) (k : String) (v : α) :
    List (String × α) :=
  if m.any (fun p => p.1 = k) then m.map (fun p => if p.1 = k then (k, v) else p)
  else m ++ [(k, v)]

/-- Python `dict.get`. -/
def alistGet? {α : Type} (m : List (String × α)) (k : String) : Option α :=
  (m.find? (fun p => p.1 = k)).map (fun p => p.2)

/-- Embeds `split_sections` (`src/tools/jd_parser.py` lines 56–88):
`header → stripped content` for every header occurrence, later duplicate
occurrences overwriting earlier ones. -/
def split_sections (cs : List Char) : List (String × List Char) :=
  (gatherSections (tokenize cs.length cs)).foldl
    (fun acc p => alistSet acc p.1 (pyStrip p.2)) []

/-- Embeds `re.sub(r"^[-•]\s*", "", line)`: one leading bullet glyph and the
whitespace after it. -/
def stripOneBullet (cs : List Char) : List Char :=
  match cs with
  | c :: rest =>
    if c = '-' || c = Char.ofNat 0x2022 then rest.dropWhile isPySpace else cs
  | [] => cs

/-- Embeds `parse_section_from_text` (`src/tools/jd_parser.py` lines 90–108):
per line, a stripped bullet item or a non-empty text block. -/
def parse_section_from_text (cs : List Char) : List (List Char) :=
  (pySplitlines cs).filterMap (fun line =>
    let lc := pyStrip line
    match lc with
    | c :: _ =>
      if c = '-' || c = Char.ofNat 0x2022 then some (stripOneBullet lc)
      else some lc
    | [] => none)

/-- Python `str.split(',')` (always at least one piece). -/
def splitCommasAux : List Char → List Char → List (List Char)
  | acc, [] => [acc.reverse]
  | acc, ',' :: cs => acc.reverse :: splitCommasAux [] cs
  | acc, c :: cs => splitCommasAux (c :: acc) cs

def splitCommas (cs : List Char) : List (List Char) := splitCommasAux [] cs

/-- Extend-with-default of `defaultdict(list)`: `d[k].extend(vs)`. -/
def alistExtend {α : Type} (m : List (String × List α)) (k : String)
    (vs : List α) : List (String × List α) :=
  if m.any (fun p => p.1 = k) then
    m.map (fun p => if p.1 = k then (p.1, p.2 ++ vs) else p)
  else m ++ [(k, vs)]

/-- Embeds `re.compile(r"(backend|frontend|devops):\s*(.+)", IGNORECASE).match`:
anchored category header.  Greedy `\s*` with the `(.+)` backtracking: if
anything follows the whitespace it is the group, otherwise the group is
the last whitespace character (given back by `\s*` so that `.+` is
non-empty). -/
def matchCategory (line : List Char) : Option (String × List Char) :=
  let tryCat (cat : String) : Option (String × List Char) :=
    match dropLitCI cat.toList line with
    | some (':' :: rest) =>
      let ws := rest.takeWhile isPySpace
      let tail := rest.dropWhile isPySpace
      if tail ≠ [] then some (cat, tail)
      else match ws.getLast? with
        | some w => some (cat, [w])
        | none => none
    | _ => none
  (tryCat "backend").orElse (fun _ =>
    (tryCat "frontend").orElse (fun _ => tryCat "devops"))

/-- The per-line loop of `extract_tech_stack`, carrying `current_category`. -/
def techLoop : List (List Char) → Option String →
    List (String × List (List Char)) → List (String × List (List Char))
  | [], _, acc => acc
  | line :: rest, cur, acc =>
    let lc := pyStrip line
    if lc = [] then techLoop rest cur acc
    else match matchCategory lc with
      | some (cat, g2) =>
        techLoop rest (some cat) (alistExtend acc cat ((splitCommas g2).map pyStrip))
      | none =>
        match cur with
        | some cat =>
          if lc.head? = some '-' then
            techLoop rest cur (alistExtend acc cat ((splitCommas (lc.drop 1)).map pyStrip))
          else techLoop rest cur acc
        | none => techLoop rest cur acc

/-- Embeds `extract_tech_stack` (`src/tools/jd_parser.py` lines 110–138). -/
def extract_tech_stack (cs : List Char) : List (String × List (List Char)) :=
  techLoop (pySplitlines cs) none []

/-- Variant of `techLoop` without its bare-bullet continuation branch (the
`if current_category and line_clean.startswith('-')` arm). -/
def techLoopNoCont : List (List Char) → Option String →
    List (String × List (List Char)) → List (String × List (List Char))
  | [], _, acc => acc
  | line :: rest, cur, acc =>
    let lc := pyStrip line
    if lc = [] then techLoopNoCont rest cur acc
    else match matchCategory lc with
      | some (cat, g2) =>
        techLoopNoCont rest (some cat) (alistExtend acc cat ((splitCommas g2).map pyStrip))
      | none => techLoopNoCont rest cur acc

/-! ### Skill extraction (`parse_job_description_content`, lines 162–191) -/

/-- The skill vocabulary, in the alternation order of `skill_pattern`. -/
def skillVocab : List String :=
  ["python", "java", "javascript", "typescript", "go", "rust", "c++", "c#",
   "ruby", "php", "scala", "swift",
   "tensorflow", "keras", "pytorch", "scikit-learn", "xgboost", "lightgbm",
   "numpy", "pandas", "matplotlib", "seaborn", "plotly", "dash", "streamlit",
   "sql", "nosql", "mysql", "postgresql", "mongodb", "redis",
   "aws", "azure", "gcp", "docker", "kubernetes", "terraform", "ansible",
   "jenkins", "git", "github", "gitlab", "bitbucket",
   "nlp", "llm", "transformers", "bert", "gpt", "huggingface",
   "computer vision", "opencv", "cnn", "rnn", "gan",
   "linux", "bash", "shell",
   "react", "angular", "vue", "svelte", "next.js", "node.js", "express",
   "flask", "django"]

/-- Boundary `\b` between two optional characters (text edge counts as non-word). -/
def atBoundary (prev next : Option Char) : Bool :=
  (match prev with | none => false | some c => isWordC c) !=
  (match next with | none => false | some c => isWordC c)

/-- One alternative of `skill_pattern` at one position, with the `\b` on
both sides of the group (note a term ending in a non-word character, such
as `c++`, needs a *word* character after it for the closing `\b`). -/
def trySkillAt (prev : Option Char) (cs : List Char) :
    List String → Option (String × List Char)
  | [] => none
  | v :: vs =>
    match dropLit v.toList cs with
    | some rest =>
      if atBoundary prev (v.toList.head?) &&
         atBoundary (v.toList.getLast?) rest.head? then
        some (v, rest)
      else trySkillAt prev cs vs
    | none => trySkillAt prev cs vs

/-- Embeds `skill_pattern.findall(text)`: leftmost, non-overlapping, first
alternative wins at each position (the text is already lowercased). -/
def findallSkills : Nat → Option Char → List Char → List String
  | 0, _, _ => []
  | _, _, [] => []
  | fuel + 1, prev, c :: cs =>
    match trySkillAt prev (c :: cs) skillVocab with
    | some (v, rest) => v :: findallSkills fuel v.toList.getLast? rest
    | none => findallSkills fuel (some c) cs

/-- Python `str.title()` (ASCII model): a letter after a non-letter is
uppercased, a letter after a letter is lowercased. -/
def pyTitleGo : Bool → List Char → List Char
  | _, [] => []
  | prevAlpha, c :: cs =>
    (if prevAlpha then c.toLower else c.toUpper) :: pyTitleGo c.isAlpha cs

def pyTitle (s : String) : String := String.mk (pyTitleGo false s.toList)

/-- ASCII `str.lower()`. -/
def pyLower (s : String) : String := String.mk (s.toList.map Char.toLower)

/-- The skill loop of `parse_job_description_content`: for each
qualification line, `skill_pattern.findall(qual.lower())`, then for each
distinct match `required_skills[skill.title()] = 0`.  (`set(matches)` has
no fixed iteration order in Python; first-occurrence order is used here —
the recorded value is `0` either way.) -/
def skillScan (quals : List String) : List (String × Int) :=
  quals.foldl (fun acc qual =>
    (((findallSkills (pyLower qual).toList.length none (pyLower qual).toList)).eraseDups).foldl
      (fun acc2 sk => alistSet acc2 (pyTitle sk) 0) acc) []

/-- The structured record validated by `JDParsingResult`. -/
structure JDParsingResult where
  job_title : String
  required_skills : List (String × Int)
  mentioned_terms : List String
  responsibilities : List String
  qualifications : List String
  tech_stack : List (String × List String)
  parse_mode : String
deriving DecidableEq, Repr

/-- Embeds `parse_job_description_content` (`src/tools/jd_parser.py` lines
140–231): clean, segment, and populate the result record.  Note the
title is only ever the `JOB TITLE:` section (or the default), and every
recorded skill value is `0`. -/
def parse_job_description_content (jdContent : String) (parseMode : String) :
    JDParsingResult :=
  let text := clean_text jdContent.toList
  let sections := split_sections text
  let getSec (k : String) : List Char := (alistGet? sections k).getD []
  let quals := (parse_section_from_text (getSec "required qualifications")).map String.mk
  let skills := skillScan quals
  { job_title :=
      String.mk (pyStrip ((alistGet? sections "job title").getD "Undefined Role".toList))
    required_skills := skills
    mentioned_terms := skills.map (fun p => p.1)
    responsibilities :=
      (parse_section_from_text (getSec "key responsibilities")).map String.mk
    qualifications := quals
    tech_stack :=
      (extract_tech_stack (getSec "tech stack")).map
        (fun p => (p.1, p.2.map String.mk))
    parse_mode := parseMode }

/-! ### State, coordinator and workflow
(`src/schemas/base.py`, `src/agents/coordinator.py`,
`src/agents/jd_processor.py`, `src/agents/resume_processor.py`,
`src/workflows/ats_workflow.py`) -/

/-- A Python value as stored in the loosely-typed `metadata` mappings. -/
inductive PyVal where
  | vNone : PyVal
  | vBool : Bool → PyVal
  | vInt : Int → PyVal
  | vFloat : ℚ → PyVal
  | vStr : String → PyVal
  | vList : List PyVal → PyVal
  | vDict : List (String × PyVal) → PyVal

/-- Python truthiness. -/
def pyTruthy : PyVal → Bool
  | .vNone => false
  | .vBool b => b
  | .vInt i => i ≠ 0
  | .vFloat q => q ≠ 0
  | .vStr s => s ≠ ""
  | .vList l => !l.isEmpty
  | .vDict d => !d.isEmpty

/-- Embeds `isinstance(x, (int, float))` — a `bool` is a subclass of `int`. -/
def pyIsNumber : PyVal → Bool
  | .vBool _ => true
  | .vInt _ => true
  | .vFloat _ => true
  | _ => false

/-- Numeric value of a Python number (`True == 1`, `False == 0`). -/
def pyNumVal : PyVal → ℚ
  | .vBool b => if b then 1 else 0
  | .vInt i => (i : ℚ)
  | .vFloat q => q
  | _ => 0

/-- Embeds `ResumeContent` (`src/schemas/resume.py`). -/
structure ResumeContent where
  text : String
  file_path : String
  metadata : Option (List (String × PyVal))

/-- Embeds `AgentState` (`src/schemas/base.py`). -/
structure AgentState where
  jd_content : Option String := none
  resumes : List ResumeContent := []
  scores : List (String × ℚ) := []
  metadata : List (String × PyVal) := []
  input : Option String := none

/-- Truthiness of the optional `jd_content` (`None` and `""` are falsy). -/
def truthyOptStr : Option String → Bool
  | none => false
  | some s => s ≠ ""

/-- Embeds `Coordinator._calculate_score` (`src/agents/coordinator.py` lines
142–173).  `llm` is the external rating capability: it stands for
`self._llm.invoke(prompt)` on the prompt built from the job description
and the résumé's text and metadata; `.error` is the call raising.  Any
exception yields `0.0`. -/
def calculate_score (llm : String → ResumeContent → Except Unit String)
    (jd : String) (r : ResumeContent) : ℚ :=
  match llm jd r with
  | .error _ => 0
  | .ok resp => parse_score_from_response resp

/-- One recorded placement side effect (`_move_qualified_resume` /
`move_filtered_resumes` invocation). -/
structure Placement where
  source : String
  score : ℚ
  dest : PyVal

/-- The per-résumé loop of `Coordinator.process` (lines 103–121): score,
record in `scores_dict`, and if `score > 75` perform the placement with
`state.metadata.get("output_dir", "filtered_resumes")`. -/
def coordLoop (llm : String → ResumeContent → Except Unit String)
    (jd : String) (md : List (String × PyVal)) :
    List ResumeContent → List (String × ℚ) → List Placement →
    List (String × ℚ) × List Placement
  | [], scores, moves => (scores, moves)
  | r :: rs, scores, moves =>
    let score := calculate_score llm jd r
    let scores2 := alistSet scores r.file_path score
    let moves2 :=
      if score > 75 then
        moves ++ [{ source := r.file_path, score := score,
                    dest := (alistGet? md "output_dir").getD (.vStr "filtered_resumes") }]
      else moves
    coordLoop llm jd md rs scores2 moves2

/-- The `scoring_results` audit list:
`[{file_path, score, metadata} for resume, score in zip(state.resumes,
scores_dict.values())]` (an empty metadata dict is falsy, hence `None`). -/
def scoringResultsVal (resumes : List ResumeContent)
    (scores : List (String × ℚ)) : PyVal :=
  .vList ((resumes.zip scores).map (fun p =>
    .vDict [("file_path", .vStr p.1.file_path), ("score", .vFloat p.2.2),
            ("metadata", match p.1.metadata with
                         | some m => if m.isEmpty then .vNone else .vDict m
                         | none => .vNone)]))

/-- Embeds `Coordinator.process` (`src/agents/coordinator.py` lines 86–140).
Missing `jd_content` (None or empty) or an empty résumé list
short-circuits with empty `scores`; otherwise the loop result is merged
into the state (and the side effects are reported alongside).  The
whole body is inside `try/except`, so no exception escapes. -/
def coordinator_process (llm : String → ResumeContent → Except Unit String)
    (st : AgentState) : AgentState × List Placement :=
  if !truthyOptStr st.jd_content || st.resumes.isEmpty then
    ({ st with scores := [] }, [])
  else
    let res := coordLoop llm (st.jd_content.getD "") st.metadata st.resumes [] []
    ({ st with
        scores := res.1,
        metadata := alistSet st.metadata "scoring_results"
          (scoringResultsVal st.resumes res.1) },
     res.2)

/-- The field names of `AgentState.model_dump()`. -/
def modelDumpKeys : List String :=
  ["jd_content", "resumes", "scores", "metadata", "input"]

/-- Whether a keyword-argument name list contains a duplicate (a duplicate
makes the Python call raise `TypeError` before the callee runs). -/
def hasDupKey : List String → Bool
  | [] => false
  | k :: ks => ks.contains k || hasDupKey ks

/-- The `parsed_jd` value: the tool's
`{"status": "success", "result": ..., "parse_mode": "full"}` payload. -/
def jdToolOutputPy (jdContent : String) : PyVal :=
  let r := parse_job_description_content jdContent "full"
  .vDict [("status", .vStr "success"),
          ("result", .vDict
            [("job_title", .vStr r.job_title),
             ("required_skills", .vDict (r.required_skills.map
                (fun p => (p.1, PyVal.vInt p.2)))),
             ("mentioned_terms", .vList (r.mentioned_terms.map .vStr)),
             ("responsibilities", .vList (r.responsibilities.map .vStr)),
             ("qualifications", .vList (r.qualifications.map .vStr)),
             ("tech_stack", .vDict (r.tech_stack.map
                (fun p => (p.1, PyVal.vList (p.2.map .vStr))))),
             ("parse_mode", .vStr r.parse_mode)]),
          ("parse_mode", .vStr "full")]

/-- Embeds `JDProcessor.process` (`src/agents/jd_processor.py` lines 75–116).
`readJD` is the external document decode (`None` = the read raised).
The return statement is
`AgentState(**state.model_dump(), jd_content=..., metadata=...)`;
since `model_dump()` already contains the keys `jd_content` and
`metadata`, that call raises `TypeError` (duplicate keyword argument),
which the `except` swallows by returning the incoming state — the
`hasDupKey` guard makes this control flow explicit. -/
def jd_processor_process (readJD : String → Option String) (st : AgentState) :
    AgentState :=
  match alistGet? st.metadata "jd_path" with
  | some (.vStr path) =>
    match readJD path with
    | some jdContent =>
      if hasDupKey (modelDumpKeys ++ ["jd_content", "metadata"]) then st
      else { st with
              jd_content := some jdContent,
              metadata := alistSet st.metadata "parsed_jd" (jdToolOutputPy jdContent) }
    | none => st
  | _ => st

/-- Embeds `ResumeProcessor.process` (`src/agents/resume_processor.py` lines
81–124).  `batch` is the external `batch_process_resume_folder` call:
`.error` = the call raised (except path, state returned unchanged),
`.ok none` = non-success status (resumes replaced by `[]`),
`.ok (some files)` = the decoded `(file_path, content)` list.  `loadMeta`
is the external metadata lookup for a résumé (consulted only when
`metadata_folder` is truthy; a miss leaves the metadata dict empty). -/
def resume_processor_process
    (batch : Except Unit (Option (List (String × String))))
    (loadMeta : String → Option (List (String × PyVal)))
    (st : AgentState) : AgentState :=
  match batch with
  | .error _ => st
  | .ok none => { st with resumes := [] }
  | .ok (some files) =>
    let mfTruthy := pyTruthy ((alistGet? st.metadata "metadata_folder").getD .vNone)
    { st with resumes := files.map (fun f =>
        { text := f.2, file_path := f.1,
          metadata := some ((if mfTruthy then loadMeta f.1 else none).getD []) }) }

/-- The threshold validation of `ATSWorkflow.invoke` (lines 33–42):
a missing, non-numeric or out-of-range `score_threshold` becomes `75.0`
(`isinstance(·, (int, float))`, so a `bool` passes as numeric). -/
def validate_threshold (md : List (String × PyVal)) : List (String × PyVal) :=
  match alistGet? md "score_threshold" with
  | none => alistSet md "score_threshold" (.vFloat 75)
  | some t =>
    if !pyIsNumber t || pyNumVal t < 0 || pyNumVal t > 100 then
      alistSet md "score_threshold" (.vFloat 75)
    else md

/-- Embeds `sum(1 for score in final_state.scores.values() if score >= threshold)`
(`src/workflows/ats_workflow.py` line 55 — note `>=`). -/
def qualifiedCount (scores : List (String × ℚ)) (threshold : ℚ) : Nat :=
  (scores.filter (fun kv => threshold ≤ kv.2)).length

/-- What `ATSWorkflow.invoke` produces: the final state it returns, the
placement side effects performed along the way, and the qualified/total
counts it computes (and logs) at lines 54–59. -/
structure WorkflowResult where
  final : AgentState
  placements : List Placement
  qualified_count : Nat
  total_count : Nat

/-- Embeds `ATSWorkflow.invoke` (`src/workflows/ats_workflow.py` lines 30–65):
validate the threshold on the initial state's metadata, run the three
stages `parse_jd → process_resumes → score_and_move` sequentially (the
graph is a straight line and every node returns a full state), then
compute the qualified count against
`final_state.metadata.get("score_threshold", 75.0)` with `>=`. -/
def workflow_invoke (llm : String → ResumeContent → Except Unit String)
    (readJD : String → Option String)
    (batch : Except Unit (Option (List (String × String))))
    (loadMeta : String → Option (List (String × PyVal)))
    (st0 : AgentState) : WorkflowResult :=
  let st1 := { st0 with metadata := validate_threshold st0.metadata }
  let st2 := jd_processor_process readJD st1
  let st3 := resume_processor_process batch loadMeta st2
  let res := coordinator_process llm st3
  let threshold := pyNumVal ((alistGet? res.1.metadata "score_threshold").getD (.vFloat 75))
  { final := res.1, placements := res.2,
    qualified_count := qualifiedCount res.1.scores threshold,
    total_count := res.1.scores.length }

/-- Variant of `extract_tech_stack` with the continuation branch removed. -/
def extract_tech_stack_nocont (cs : List Char) : List (String × List (List Char)) :=
  techLoopNoCont (pySplitlines cs) none []

/-- One-character view of the glyph substitutions: the image of a single
character under `replaceGlyphs`. -/
def glyphChar (c : Char) : List Char :=
  if c = Char.ofNat 0xf0b7 then ['-']
  else if c = Char.ofNat 0x2022 then ['-']
  else if c = Char.ofNat 0x25cf then ['-']
  else if c = Char.ofNat 0x200b then []
  else if c = Char.ofNat 0x2013 then ['-']
  else if c = Char.ofNat 0x2014 then ['-', '-']
  else if c = Char.ofNat 0x2018 then ['\'']
  else if c = Char.ofNat 0x2019 then ['\'']
  else [c]

/-- Whether a character is one of the glyph-replacement keys. -/
def isGlyphKey (c : Char) : Bool := glyphTable.any (fun p => p.1 = c)

/-- The shape of normalizer output: every whitespace character is a plain
ASCII space and no two adjacent characters are both whitespace. -/
def Collapsed (cs : List Char) : Prop :=
  (∀ a ∈ cs, isPySpace a = true → a = ' ') ∧
  cs.Chain' (fun a b => ¬(isPySpace a = true ∧ isPySpace b = true))

/-! ## Lemmas about the text normalizer -/


theorem dropWhile_head?_false {p : Char → Bool} {l : List Char} {a : Char}
    (h : (l.dropWhile p).head? = some a) : p a = false := by
  induction l with
  | nil => simp [List.dropWhile] at h
  | cons c cs ih =>
    by_cases hc : p c = true
    · rw [List.dropWhile_cons_of_pos hc] at h
      exact ih h
    · rw [List.dropWhile_cons_of_neg hc] at h
      simp only [List.head?_cons, Option.some.injEq] at h
      subst h
      simpa using hc

theorem collapseGo_head?_true (cs : List Char) (a : Char)
    (h : (collapseGo true cs).head? = some a) : isPySpace a = false := by
  induction cs with
  | nil => simp [collapseGo] at h
  | cons c cs ih =>
    by_cases hc : isPySpace c = true
    · rw [show collapseGo true (c :: cs) = collapseGo true cs from by
        simp [collapseGo, hc]] at h
      exact ih h
    · rw [show collapseGo true (c :: cs) = c :: collapseGo false cs from by
        simp [collapseGo, hc]] at h
      simp only [List.head?_cons, Option.some.injEq] at h
      subst h
      simpa using hc

theorem mem_collapseGo {a : Char} {b : Bool} {cs : List Char}
    (h : a ∈ collapseGo b cs) : a = ' ' ∨ (a ∈ cs ∧ isPySpace a = false) := by
  induction cs generalizing b with
  | nil => simp [collapseGo] at h
  | cons c cs ih =>
    by_cases hc : isPySpace c = true
    · cases b with
      | true =>
        rw [show collapseGo true (c :: cs) = collapseGo true cs from by
          simp [collapseGo, hc]] at h
        rcases ih h with h | ⟨h1, h2⟩
        · exact Or.inl h
        · exact Or.inr ⟨List.mem_cons_of_mem _ h1, h2⟩
      | false =>
        rw [show collapseGo false (c :: cs) = ' ' :: collapseGo true cs from by
          simp [collapseGo, hc]] at h
        rcases List.mem_cons.mp h with h | h
        · exact Or.inl h
        · rcases ih h with h | ⟨h1, h2⟩
          · exact Or.inl h
          · exact Or.inr ⟨List.mem_cons_of_mem _ h1, h2⟩
    · rw [show collapseGo b (c :: cs) = c :: collapseGo false cs from by
        simp [collapseGo, hc]] at h
      rcases List.mem_cons.mp h with h | h
      · subst h
        exact Or.inr ⟨List.mem_cons_self _ _, by simpa using hc⟩
      · rcases ih h with h | ⟨h1, h2⟩
        · exact Or.inl h
        · exact Or.inr ⟨List.mem_cons_of_mem _ h1, h2⟩

theorem chain_collapseGo (b : Bool) (cs : List Char) :
    (collapseGo b cs).Chain'
      (fun a b => ¬(isPySpace a = true ∧ isPySpace b = true)) := by
  induction cs generalizing b with
  | nil => simp [collapseGo]
  | cons c cs ih =>
    by_cases hc : isPySpace c = true
    · cases b with
      | true =>
        rw [show collapseGo true (c :: cs) = collapseGo true cs from by
          simp [collapseGo, hc]]
        exact ih true
      | false =>
        rw [show collapseGo false (c :: cs) = ' ' :: collapseGo true cs from by
          simp [collapseGo, hc]]
        rw [List.chain'_cons']
        refine ⟨?_, ih true⟩
        intro d hd
        rw [Option.mem_def] at hd
        have := collapseGo_head?_true cs d hd
        simp [this]
    · rw [show collapseGo b (c :: cs) = c :: collapseGo false cs from by
        simp [collapseGo, hc]]
      rw [List.chain'_cons']
      refine ⟨fun d _ hx => hc hx.1, ih false⟩

theorem collapsed_collapseWs (cs : List Char) : Collapsed (collapseWs cs) := by
  refine ⟨?_, chain_collapseGo false cs⟩
  intro a ha hsp
  rcases mem_collapseGo ha with h | ⟨_, h2⟩
  · exact h
  · rw [hsp] at h2
    cases h2

theorem collapseGo_true_eq_false (cs : List Char)
    (h : ∀ a, cs.head? = some a → isPySpace a = false) :
    collapseGo true cs = collapseGo false cs := by
  cases cs with
  | nil => rfl
  | cons c cs =>
    have hc := h c rfl
    simp [collapseGo, hc]

theorem collapseWs_eq_self {cs : List Char} (h : Collapsed cs) :
    collapseWs cs = cs := by
  unfold collapseWs
  induction cs with
  | nil => rfl
  | cons c cs ih =>
    obtain ⟨h1, h2⟩ := h
    rw [List.chain'_cons'] at h2
    obtain ⟨hhead, htail⟩ := h2
    have htailC : Collapsed cs :=
      ⟨fun a ha => h1 a (List.mem_cons_of_mem _ ha), htail⟩
    by_cases hc : isPySpace c = true
    · have hce : c = ' ' := h1 c (by simp) hc
      have hheadf : ∀ a, cs.head? = some a → isPySpace a = false := by
        intro a ha
        have := hhead a (by rw [Option.mem_def]; exact ha)
        by_contra hx
        exact this ⟨hc, by simpa using hx⟩
      rw [show collapseGo false (c :: cs) = ' ' :: collapseGo true cs from by
        simp [collapseGo, hc]]
      rw [collapseGo_true_eq_false cs hheadf, ih htailC, hce]
    · rw [show collapseGo false (c :: cs) = c :: collapseGo false cs from by
        simp [collapseGo, hc]]
      rw [ih htailC]

theorem mem_collapseWs {a : Char} {cs : List Char} (h : a ∈ collapseWs cs) :
    a = ' ' ∨ a ∈ cs :=
  (mem_collapseGo h).imp id And.left


theorem rstrip_prefixOf (l : List Char) : rstrip l <+: l := by
  obtain ⟨t, ht⟩ := List.dropWhile_suffix (l := l.reverse) isPySpace
  refine ⟨t.reverse, ?_⟩
  rw [rstrip, ← List.reverse_append, ht, List.reverse_reverse]

theorem pyStrip_infixOf (l : List Char) : pyStrip l <:+: l :=
  ((rstrip_prefixOf (lstrip l)).isInfix).trans (List.dropWhile_suffix isPySpace).isInfix

theorem mem_pyStrip {a : Char} {l : List Char} (h : a ∈ pyStrip l) : a ∈ l :=
  ((pyStrip_infixOf l).sublist).subset h

theorem collapsed_of_infixOf {l l' : List Char} (h : Collapsed l) (hi : l' <:+: l) :
    Collapsed l' :=
  ⟨fun a ha => h.1 a (hi.sublist.subset ha), List.Chain'.infix h.2 hi⟩

theorem replace1_append (k : Char) (v xs ys : List Char) :
    replace1 k v (xs ++ ys) = replace1 k v xs ++ replace1 k v ys := by
  simp [replace1]

theorem foldGlyph_append (t : List (Char × List Char)) (xs ys : List Char) :
    t.foldl (fun acc p => replace1 p.1 p.2 acc) (xs ++ ys) =
      t.foldl (fun acc p => replace1 p.1 p.2 acc) xs ++
      t.foldl (fun acc p => replace1 p.1 p.2 acc) ys := by
  induction t generalizing xs ys with
  | nil => rfl
  | cons p t ih =>
    simp only [List.foldl_cons]
    rw [replace1_append]
    exact ih _ _

theorem replaceGlyphs_cons (c : Char) (cs : List Char) :
    replaceGlyphs (c :: cs) = replaceGlyphs [c] ++ replaceGlyphs cs := by
  show replaceGlyphs ([c] ++ cs) = _
  rw [replaceGlyphs, foldGlyph_append]
  rfl

theorem replaceGlyphs_single (c : Char) : replaceGlyphs [c] = glyphChar c := by
  by_cases h1 : c = Char.ofNat 0xf0b7
  · subst h1; rfl
  by_cases h2 : c = Char.ofNat 0x2022
  · subst h2; rfl
  by_cases h3 : c = Char.ofNat 0x25cf
  · subst h3; rfl
  by_cases h4 : c = Char.ofNat 0x200b
  · subst h4; rfl
  by_cases h5 : c = Char.ofNat 0x2013
  · subst h5; rfl
  by_cases h6 : c = Char.ofNat 0x2014
  · subst h6; rfl
  by_cases h7 : c = Char.ofNat 0x2018
  · subst h7; rfl
  by_cases h8 : c = Char.ofNat 0x2019
  · subst h8; rfl
  simp [replaceGlyphs, glyphTable, replace1, glyphChar, h1, h2, h3, h4, h5, h6, h7, h8]

theorem replaceGlyphs_eq_flatMap (cs : List Char) :
    replaceGlyphs cs = cs.flatMap glyphChar := by
  induction cs with
  | nil => rfl
  | cons c cs ih =>
    rw [replaceGlyphs_cons, replaceGlyphs_single, ih]
    simp [List.flatMap_cons]

theorem isGlyphKey_false_iff (c : Char) : isGlyphKey c = false ↔
    (c ≠ Char.ofNat 0xf0b7 ∧ c ≠ Char.ofNat 0x2022 ∧ c ≠ Char.ofNat 0x25cf ∧
     c ≠ Char.ofNat 0x200b ∧ c ≠ Char.ofNat 0x2013 ∧ c ≠ Char.ofNat 0x2014 ∧
     c ≠ Char.ofNat 0x2018 ∧ c ≠ Char.ofNat 0x2019) := by
  simp only [isGlyphKey, glyphTable, List.any_cons, List.any_nil,
    Bool.or_eq_false_iff, decide_eq_false_iff_not]
  constructor
  · rintro ⟨a1, a2, a3, a4, a5, a6, a7, ⟨a8, -⟩⟩
    exact ⟨Ne.symm a1, Ne.symm a2, Ne.symm a3, Ne.symm a4,
           Ne.symm a5, Ne.symm a6, Ne.symm a7, Ne.symm a8⟩
  · rintro ⟨a1, a2, a3, a4, a5, a6, a7, a8⟩
    exact ⟨Ne.symm a1, Ne.symm a2, Ne.symm a3, Ne.symm a4,
           Ne.symm a5, Ne.symm a6, Ne.symm a7, Ne.symm a8, trivial⟩

theorem glyphChar_no_key (c a : Char) (h : a ∈ glyphChar c) :
    isGlyphKey a = false := by
  unfold glyphChar at h
  split_ifs at h with h1 h2 h3 h4 h5 h6 h7 h8
  · simp only [List.mem_singleton] at h; subst h; decide
  · simp only [List.mem_singleton] at h; subst h; decide
  · simp only [List.mem_singleton] at h; subst h; decide
  · simp at h
  · simp only [List.mem_singleton] at h; subst h; decide
  · simp only [List.mem_cons, List.not_mem_nil, or_false] at h
    rcases h with rfl | rfl
    · decide
    · decide
  · simp only [List.mem_singleton] at h; subst h; decide
  · simp only [List.mem_singleton] at h; subst h; decide
  · simp only [List.mem_singleton] at h; subst h
    exact (isGlyphKey_false_iff a).mpr ⟨h1, h2, h3, h4, h5, h6, h7, h8⟩

theorem glyphChar_id (c : Char) (h : isGlyphKey c = false) : glyphChar c = [c] := by
  obtain ⟨h1, h2, h3, h4, h5, h6, h7, h8⟩ := (isGlyphKey_false_iff c).mp h
  simp [glyphChar, h1, h2, h3, h4, h5, h6, h7, h8]

theorem replaceGlyphs_id (cs : List Char) (h : ∀ a ∈ cs, isGlyphKey a = false) :
    replaceGlyphs cs = cs := by
  rw [replaceGlyphs_eq_flatMap]
  induction cs with
  | nil => rfl
  | cons c cs ih =>
    rw [List.flatMap_cons, glyphChar_id c (h c (by simp)),
        ih (fun a ha => h a (List.mem_cons_of_mem _ ha))]
    rfl

theorem mem_replaceGlyphs_no_key (cs : List Char) (a : Char)
    (h : a ∈ replaceGlyphs cs) : isGlyphKey a = false := by
  rw [replaceGlyphs_eq_flatMap, List.mem_flatMap] at h
  obtain ⟨c, _, hc⟩ := h
  exact glyphChar_no_key c a hc

theorem dropWhile_idem (p : Char → Bool) (l : List Char) :
    (l.dropWhile p).dropWhile p = l.dropWhile p := by
  cases h : l.dropWhile p with
  | nil => rfl
  | cons d t =>
    have hd : p d = false := dropWhile_head?_false (by rw [h]; rfl)
    exact List.dropWhile_cons_of_neg (by simp [hd])

theorem rstrip_idem (l : List Char) : rstrip (rstrip l) = rstrip l := by
  unfold rstrip
  rw [List.reverse_reverse, dropWhile_idem]

theorem pyStrip_head?_false (w : List Char) (a : Char)
    (h : (pyStrip w).head? = some a) : isPySpace a = false := by
  obtain ⟨t, ht⟩ := rstrip_prefixOf (lstrip w)
  cases hr : rstrip (lstrip w) with
  | nil => rw [pyStrip, hr] at h; simp at h
  | cons b r =>
    rw [pyStrip, hr] at h
    simp only [List.head?_cons, Option.some.injEq] at h
    subst h
    rw [hr] at ht
    have : (lstrip w).head? = some b := by
      rw [← ht]; rfl
    exact dropWhile_head?_false this

theorem pyStrip_idem (w : List Char) : pyStrip (pyStrip w) = pyStrip w := by
  have h1 : lstrip (pyStrip w) = pyStrip w := by
    cases hv : pyStrip w with
    | nil => rfl
    | cons c cs =>
      have : isPySpace c = false := pyStrip_head?_false w c (by rw [hv]; rfl)
      exact List.dropWhile_cons_of_neg (by simp [this])
  show rstrip (lstrip (pyStrip w)) = pyStrip w
  rw [h1]
  exact rstrip_idem _

/-- C10: the text normalizer (`clean_text`) is idempotent:
`clean_text (clean_text x) = clean_text x` for every raw text `x`. -/
theorem clean_text_idempotent (cs : List Char) :
    clean_text (clean_text cs) = clean_text cs := by
  have hw : Collapsed (collapseWs (replaceGlyphs cs)) := collapsed_collapseWs _
  have hcy : Collapsed (clean_text cs) := collapsed_of_infixOf hw (pyStrip_infixOf _)
  have hnokey : ∀ a ∈ clean_text cs, isGlyphKey a = false := by
    intro a ha
    have haw : a ∈ collapseWs (replaceGlyphs cs) := mem_pyStrip ha
    rcases mem_collapseWs haw with h | h
    · subst h; decide
    · exact mem_replaceGlyphs_no_key _ _ h
  show pyStrip (collapseWs (replaceGlyphs (clean_text cs))) = clean_text cs
  rw [replaceGlyphs_id _ hnokey, collapseWs_eq_self hcy]
  exact pyStrip_idem _

/-! ## Lemmas: normalized text is line-break free, sections are single lines -/

theorem clean_text_no_break {cs : List Char} {a : Char} (h : a ∈ clean_text cs) :
    isLineBreak a = false := by
  by_contra hx
  have hb : isLineBreak a = true := by simpa using hx
  have hC : Collapsed (clean_text cs) :=
    collapsed_of_infixOf (collapsed_collapseWs _) (pyStrip_infixOf _)
  have ha : a = ' ' := hC.1 a h (lineBreak_isPySpace hb)
  subst ha
  exact absurd hb (by decide)

theorem splitlinesAux_no_break (cs : List Char)
    (h : ∀ a ∈ cs, isLineBreak a = false) (acc : List Char) :
    splitlinesAux acc cs = [acc.reverse ++ cs] := by
  induction cs generalizing acc with
  | nil => simp [splitlinesAux]
  | cons c cs ih =>
    have hc : isLineBreak c = false := h c (by simp)
    have hcr : c ≠ '\x0d' := by
      intro he; subst he; exact absurd hc (by decide)
    have hstep : splitlinesAux acc (c :: cs) = splitlinesAux (c :: acc) cs := by
      cases cs with
      | nil => rw [splitlinesAux.eq_3, if_neg hcr, if_neg (by simp [hc])]
      | cons c2 cs2 =>
        by_cases h2 : c2 = '\n'
        · subst h2
          rw [splitlinesAux.eq_2, if_neg hcr, if_neg (by simp [hc])]
        · rw [splitlinesAux.eq_4 _ _ _ _ (fun he => absurd he h2),
              if_neg hcr, if_neg (by simp [hc])]
    rw [hstep,
        ih (fun a ha => h a (List.mem_cons_of_mem _ ha)) (c :: acc)]
    simp

theorem pySplitlines_no_break {cs : List Char}
    (h : ∀ a ∈ cs, isLineBreak a = false) :
    pySplitlines cs = if cs = [] then [] else [cs] := by
  by_cases hn : cs = []
  · simp [pySplitlines, hn]
  · have hlast : (cs.getLast?).any isLineBreak = false := by
      cases hg : cs.getLast? with
      | none => rfl
      | some a => simpa using h a (List.mem_of_mem_getLast? hg)
    rw [if_neg hn]
    unfold pySplitlines
    rw [if_neg hn]
    simp only [hlast, Bool.false_eq_true, if_false]
    rw [splitlinesAux_no_break cs h []]
    simp

theorem parse_section_from_text_le_one {cs : List Char}
    (h : ∀ a ∈ cs, isLineBreak a = false) :
    (parse_section_from_text cs).length ≤ 1 := by
  unfold parse_section_from_text
  rw [pySplitlines_no_break h]
  by_cases hn : cs = []
  · simp [hn]
  · rw [if_neg hn]
    have hone : ∀ (f : List Char → Option (List Char)) (x : List Char),
        ([x].filterMap f).length ≤ 1 := by
      intro f x
      cases hf : f x <;> simp [List.filterMap_cons, hf]
    exact hone _ _

theorem dropLitCI_suffix {ls cs rest : List Char} (h : dropLitCI ls cs = some rest) :
    rest <:+ cs := by
  induction ls generalizing cs with
  | nil =>
    simp only [dropLitCI, Option.some.injEq] at h
    subst h
    exact List.suffix_refl _
  | cons l ls ih =>
    cases cs with
    | nil => simp [dropLitCI] at h
    | cons c cs2 =>
      by_cases hc : c.toLower = l.toLower
      · rw [show dropLitCI (l :: ls) (c :: cs2) = dropLitCI ls cs2 from by
          simp [dropLitCI, hc]] at h
        exact (ih h).trans (List.suffix_cons c cs2)
      · rw [show dropLitCI (l :: ls) (c :: cs2) = none from by
          simp [dropLitCI, hc]] at h
        cases h

theorem tryHeaders_suffix {hs : List String} {cs : List Char} {hdr : String}
    {rest : List Char} (h : tryHeaders hs cs = some (hdr, rest)) :
    rest <:+ cs := by
  induction hs with
  | nil => simp [tryHeaders] at h
  | cons h0 hs ih =>
    cases hd : dropLitCI h0.toList cs with
    | some r =>
      rw [show tryHeaders (h0 :: hs) cs = some (canonHeader h0, r) from by
        rw [tryHeaders, hd]] at h
      simp only [Option.some.injEq, Prod.mk.injEq] at h
      exact h.2 ▸ dropLitCI_suffix hd
    | none =>
      rw [show tryHeaders (h0 :: hs) cs = tryHeaders hs cs from by
        rw [tryHeaders, hd]] at h
      exact ih h

theorem tokenize_inr_mem {fuel : Nat} {cs : List Char} {c : Char}
    (h : Sum.inr c ∈ tokenize fuel cs) : c ∈ cs := by
  induction fuel generalizing cs with
  | zero => simp [tokenize] at h
  | succ fuel ih =>
    cases cs with
    | nil => simp [tokenize] at h
    | cons c0 cs0 =>
      cases hth : tryHeaders headerLits (c0 :: cs0) with
      | some pr =>
        obtain ⟨hdr, rest⟩ := pr
        rw [show tokenize (fuel + 1) (c0 :: cs0) = .inl hdr :: tokenize fuel rest from by
          rw [tokenize]; rw [hth]] at h
        rcases List.mem_cons.mp h with h | h
        · cases h
        · exact (tryHeaders_suffix hth).sublist.subset (ih h)
      | none =>
        rw [show tokenize (fuel + 1) (c0 :: cs0) = .inr c0 :: tokenize fuel cs0 from by
          rw [tokenize]; rw [hth]] at h
        rcases List.mem_cons.mp h with h | h
        · injection h with h
          subst h
          exact List.mem_cons_self _ _
        · exact List.mem_cons_of_mem _ (ih h)

theorem gatherGo_mem {h0 : String} {acc : List Char} {ts : List (String ⊕ Char)}
    {k : String} {v : List Char} (hm : (k, v) ∈ gatherGo h0 acc ts) :
    ∀ c ∈ v, c ∈ acc ∨ Sum.inr c ∈ ts := by
  induction ts generalizing h0 acc with
  | nil =>
    simp only [gatherGo, List.mem_singleton, Prod.mk.injEq] at hm
    intro c hc
    rw [hm.2] at hc
    exact Or.inl (List.mem_reverse.mp hc)
  | cons t ts ih =>
    cases t with
    | inr ch =>
      rw [show gatherGo h0 acc (.inr ch :: ts) = gatherGo h0 (ch :: acc) ts from rfl] at hm
      intro c hc
      rcases ih hm c hc with h | h
      · rcases List.mem_cons.mp h with h | h
        · subst h
          exact Or.inr (List.mem_cons_self _ _)
        · exact Or.inl h
      · exact Or.inr (List.mem_cons_of_mem _ h)
    | inl h2 =>
      rw [show gatherGo h0 acc (.inl h2 :: ts) = (h0, acc.reverse) :: gatherGo h2 [] ts
        from rfl] at hm
      rcases List.mem_cons.mp hm with hm | hm
      · intro c hc
        have hv : v = acc.reverse := congrArg Prod.snd hm
        rw [hv] at hc
        exact Or.inl (List.mem_reverse.mp hc)
      · intro c hc
        rcases ih hm c hc with h | h
        · simp at h
        · exact Or.inr (List.mem_cons_of_mem _ h)

theorem gatherSections_mem {ts : List (String ⊕ Char)} {k : String}
    {v : List Char} (hm : (k, v) ∈ gatherSections ts) :
    ∀ c ∈ v, Sum.inr c ∈ ts := by
  induction ts with
  | nil => simp [gatherSections] at hm
  | cons t ts ih =>
    cases t with
    | inr ch =>
      rw [show gatherSections (.inr ch :: ts) = gatherSections ts from rfl] at hm
      exact fun c hc => List.mem_cons_of_mem _ (ih hm c hc)
    | inl h2 =>
      rw [show gatherSections (.inl h2 :: ts) = gatherGo h2 [] ts from rfl] at hm
      intro c hc
      rcases gatherGo_mem hm c hc with h | h
      · simp at h
      · exact List.mem_cons_of_mem _ h

theorem mem_snd_alistSet {α : Type} {m : List (String × α)} {k : String} {x v : α}
    (h : v ∈ (alistSet m k x).map Prod.snd) : v ∈ m.map Prod.snd ∨ v = x := by
  unfold alistSet at h
  by_cases hm : m.any (fun p => p.1 = k)
  · rw [if_pos hm, List.map_map, List.mem_map] at h
    obtain ⟨p, hp, hv⟩ := h
    by_cases hpk : p.1 = k
    · simp only [Function.comp, hpk, if_true] at hv
      exact Or.inr hv.symm
    · simp only [Function.comp, hpk, if_false] at hv
      exact Or.inl (List.mem_map.mpr ⟨p, hp, hv⟩)
  · rw [if_neg hm, List.map_append] at h
    rcases List.mem_append.mp h with h | h
    · exact Or.inl h
    · simp only [List.map_cons, List.map_nil, List.mem_singleton] at h
      exact Or.inr h

theorem mem_snd_fold_sections (ps : List (String × List Char)) :
    ∀ (acc : List (String × List Char)) (v : List Char),
    v ∈ (ps.foldl (fun a p => alistSet a p.1 (pyStrip p.2)) acc).map Prod.snd →
    v ∈ acc.map Prod.snd ∨ ∃ p ∈ ps, v = pyStrip p.2 := by
  induction ps with
  | nil => exact fun acc v h => Or.inl h
  | cons p ps ih =>
    intro acc v h
    rcases ih _ v h with h | ⟨q, hq, hv⟩
    · rcases mem_snd_alistSet h with h | h
      · exact Or.inl h
      · exact Or.inr ⟨p, List.mem_cons_self _ _, h⟩
    · exact Or.inr ⟨q, List.mem_cons_of_mem _ hq, hv⟩

theorem split_sections_value {text : List Char} {k : String} {v : List Char}
    (h : alistGet? (split_sections text) k = some v) :
    ∃ content, (∀ c ∈ content, c ∈ text) ∧ v = pyStrip content := by
  have hv : v ∈ (split_sections text).map Prod.snd := by
    unfold alistGet? at h
    cases hf : (split_sections text).find? (fun p => p.1 = k) with
    | none => rw [hf] at h; cases h
    | some p =>
      rw [hf] at h
      simp only [Option.map] at h
      injection h with h
      exact List.mem_map.mpr ⟨p, List.mem_of_find?_eq_some hf, h⟩
  unfold split_sections at hv
  rcases mem_snd_fold_sections _ [] v hv with h | ⟨p, hp, hv2⟩
  · simp at h
  · refine ⟨p.2, ?_, hv2⟩
    intro c hc
    exact tokenize_inr_mem (gatherSections_mem hp c hc)

theorem section_value_no_break {s : List Char} {k : String} {v : List Char}
    (h : alistGet? (split_sections (clean_text s)) k = some v) :
    ∀ a ∈ v, isLineBreak a = false := by
  obtain ⟨content, hsub, hv⟩ := split_sections_value h
  subst hv
  intro a ha
  exact clean_text_no_break (hsub a (mem_pyStrip ha))

theorem getSec_no_break (s : List Char) (k : String) :
    ∀ a ∈ (alistGet? (split_sections (clean_text s)) k).getD [],
      isLineBreak a = false := by
  cases hk : alistGet? (split_sections (clean_text s)) k with
  | none => simp
  | some v =>
    intro a ha
    exact section_value_no_break hk a (by simpa using ha)

theorem techLoop_eq_nocont {cs : List Char}
    (h : ∀ a ∈ cs, isLineBreak a = false) :
    extract_tech_stack cs = extract_tech_stack_nocont cs := by
  unfold extract_tech_stack extract_tech_stack_nocont
  rw [pySplitlines_no_break h]
  by_cases hn : cs = []
  · rw [if_pos hn]
    rfl
  · rw [if_neg hn]
    show techLoop [cs] none [] = techLoopNoCont [cs] none []
    by_cases hlc : pyStrip cs = []
    · simp [techLoop, techLoopNoCont, hlc]
    · cases hmc : matchCategory (pyStrip cs) with
      | some pr =>
        obtain ⟨cat, g2⟩ := pr
        simp [techLoop, techLoopNoCont, hlc, hmc]
      | none => simp [techLoop, techLoopNoCont, hlc, hmc]

theorem parse_jd_resp_le_one (s mode : String) :
    (parse_job_description_content s mode).responsibilities.length ≤ 1 := by
  simp only [parse_job_description_content, List.length_map]
  exact parse_section_from_text_le_one (getSec_no_break s.toList "key responsibilities")

theorem parse_jd_quals_le_one (s mode : String) :
    (parse_job_description_content s mode).qualifications.length ≤ 1 := by
  simp only [parse_job_description_content, List.length_map]
  exact parse_section_from_text_le_one (getSec_no_break s.toList "required qualifications")

/-- C9: `clean_text` output never contains a newline (nor any other
line-break character): every whitespace run, line breaks included, becomes
one space.  Consequently every section value produced by `split_sections`
from normalized text is a single line, so within the parsing pipeline the
responsibilities and qualifications lists each have at most one entry, and
on any section value `extract_tech_stack` coincides with the variant that
lacks the bare-bullet continuation branch — that branch is never taken. -/
theorem c9_normalizer_single_line (s mode : String) :
    ('\n' ∉ clean_text s.toList) ∧
    (∀ a ∈ clean_text s.toList, isLineBreak a = false) ∧
    (parse_job_description_content s mode).responsibilities.length ≤ 1 ∧
    (parse_job_description_content s mode).qualifications.length ≤ 1 ∧
    (∀ k v, alistGet? (split_sections (clean_text s.toList)) k = some v →
      (parse_section_from_text v).length ≤ 1 ∧
      extract_tech_stack v = extract_tech_stack_nocont v) := by
  refine ⟨?_, fun a ha => clean_text_no_break ha,
          parse_jd_resp_le_one s mode, parse_jd_quals_le_one s mode, ?_⟩
  · intro hmem
    exact absurd (clean_text_no_break hmem) (by decide)
  · intro k v hk
    have hb := section_value_no_break hk
    exact ⟨parse_section_from_text_le_one hb, techLoop_eq_nocont hb⟩

/-- Witness for C9 at a concrete tech-stack section. -/
theorem c9_normalizer_single_line_witness :
    (parse_section_from_text "backend: x".toList).length ≤ 1 ∧
    extract_tech_stack "backend: x".toList =
      extract_tech_stack_nocont "backend: x".toList :=
  (c9_normalizer_single_line "TECH STACK: backend: x" "full").2.2.2.2
    "tech stack" "backend: x".toList (by decide)

/-- C7 counterexample: a job description whose
`KEY RESPONSIBILITIES:` section has three bullet lines yields ONE
responsibilities entry, not three: normalization collapses the newlines
first, so the three bullets land on a single line. -/
theorem c7_three_bullets_counterexample :
    (parse_job_description_content "KEY RESPONSIBILITIES:\n- a\n- b\n- c"
        "full").responsibilities = ["a - b - c"] ∧
    ¬((parse_job_description_content "KEY RESPONSIBILITIES:\n- a\n- b\n- c"
        "full").responsibilities.length = 3) := by
  constructor
  · decide
  · decide

/-- C7 amended: because `clean_text` collapses newlines before
sections are split, a `KEY RESPONSIBILITIES:` section with three bullet
lines contributes exactly one entry — the three bullets collapsed onto
one line with only the leading glyph stripped — and in general each
section contributes at most one responsibilities entry. -/
theorem c7_one_entry_per_section :
    (parse_job_description_content "KEY RESPONSIBILITIES:\n- a\n- b\n- c"
        "full").responsibilities = ["a - b - c"] ∧
    ∀ (s mode : String),
      (parse_job_description_content s mode).responsibilities.length ≤ 1 :=
  ⟨by decide, fun s mode => parse_jd_resp_le_one s mode⟩

theorem mem_alistSet {α : Type} {m : List (String × α)} {k : String} {x : α}
    {p : String × α} (hp : p ∈ alistSet m k x) : p ∈ m ∨ p = (k, x) := by
  unfold alistSet at hp
  by_cases hm : m.any (fun q => q.1 = k)
  · rw [if_pos hm] at hp
    rw [List.mem_map] at hp
    obtain ⟨q, hq, hpq⟩ := hp
    by_cases hqk : q.1 = k
    · rw [if_pos hqk] at hpq
      exact Or.inr hpq.symm
    · rw [if_neg hqk] at hpq
      exact Or.inl (hpq ▸ hq)
  · rw [if_neg hm] at hp
    rcases List.mem_append.mp hp with h | h
    · exact Or.inl h
    · simp only [List.mem_singleton] at h
      exact Or.inr h

theorem skillScan_zero (quals : List String) : ∀ p ∈ skillScan quals, p.2 = 0 := by
  have inner : ∀ (ks : List String) (acc : List (String × Int)),
      (∀ p ∈ acc, p.2 = 0) →
      ∀ p ∈ ks.foldl (fun a sk => alistSet a (pyTitle sk) 0) acc, p.2 = 0 := by
    intro ks
    induction ks with
    | nil => exact fun acc hacc p hp => hacc p hp
    | cons k ks ih =>
      intro acc hacc p hp
      refine ih _ ?_ p hp
      intro q hq
      rcases mem_alistSet hq with h | h
      · exact hacc q h
      · rw [h]
  have outer : ∀ (qs : List String) (acc : List (String × Int)),
      (∀ p ∈ acc, p.2 = 0) →
      ∀ p ∈ qs.foldl (fun acc qual =>
          (((findallSkills (pyLower qual).toList.length none
              (pyLower qual).toList)).eraseDups).foldl
            (fun acc2 sk => alistSet acc2 (pyTitle sk) 0) acc) acc, p.2 = 0 := by
    intro qs
    induction qs with
    | nil => exact fun acc hacc p hp => hacc p hp
    | cons q qs ih =>
      intro acc hacc p hp
      exact ih _ (inner _ _ hacc) p hp
  exact outer quals [] (by simp)

/-- C6 counterexample: with "Python: 5" and later "Python: 3" in the
qualifications section, the recorded value is `0`, not the maximum `5`:
the extractor never parses year counts (`required_skills[skill.title()] = 0`). -/
theorem c6_max_years_counterexample :
    alistGet? (parse_job_description_content
        "REQUIRED QUALIFICATIONS:\nPython: 5 years\nlater Python: 3 years"
        "full").required_skills "Python" = some 0 ∧
    ¬(alistGet? (parse_job_description_content
        "REQUIRED QUALIFICATIONS:\nPython: 5 years\nlater Python: 3 years"
        "full").required_skills "Python" = some 5) := by
  constructor
  · decide
  · decide

/-- C6 amended: every discovered skill is title-cased and
deduplicated through the mapping key, but its recorded value is always
`0`: no years are extracted, no maximum is taken, and there is no
1-year vocabulary fallback (the vocabulary scan is the only mechanism
and always records `0`). -/
theorem c6_skills_always_zero :
    alistGet? (parse_job_description_content
        "REQUIRED QUALIFICATIONS:\nPython: 5 years\nlater Python: 3 years"
        "full").required_skills "Python" = some 0 ∧
    ∀ (quals : List String) (p : String × Int), p ∈ skillScan quals → p.2 = 0 :=
  ⟨by decide, fun quals p hp => skillScan_zero quals p hp⟩

/-- Witness for C6 (amended) on a one-line qualification list. -/
theorem c6_skills_always_zero_witness :
    ((("Python", (0 : Int))) : String × Int).2 = 0 :=
  c6_skills_always_zero.2 ["python"] ("Python", 0) (by decide)

/-- C8 counterexample: for the text "Senior Backend Engineer" — a
first line under 100 characters, so the claimed rule (4) would yield that
line — the extracted title is "Undefined Role": none of the four claimed
rules exist in the code. -/
theorem c8_title_counterexample :
    (parse_job_description_content "Senior Backend Engineer" "full").job_title
        = "Undefined Role" ∧
    "Senior Backend Engineer".length < 100 ∧
    ¬((parse_job_description_content "Senior Backend Engineer" "full").job_title
        = "Senior Backend Engineer") := by
  refine ⟨by decide, by decide, by decide⟩

/-- C8 amended: the title is the (whitespace-stripped) content of the
`JOB TITLE:` section when that header occurs in the normalized text, and
"Undefined Role" otherwise; the labeled-line, " - Job", "<Capitalized>
Developer" and first-line rules are not implemented. -/
theorem c8_title_from_section (s mode : String) :
    (alistGet? (split_sections (clean_text s.toList)) "job title" = none →
      (parse_job_description_content s mode).job_title = "Undefined Role") ∧
    (∀ v, alistGet? (split_sections (clean_text s.toList)) "job title" = some v →
      (parse_job_description_content s mode).job_title = String.mk (pyStrip v)) := by
  constructor
  · intro hk
    simp only [parse_job_description_content]
    rw [hk]
    rfl
  · intro v hk
    simp only [parse_job_description_content]
    rw [hk]
    rfl

/-- Witness for C8 (amended): both branches at concrete inputs. -/
theorem c8_title_from_section_witness :
    (parse_job_description_content "LOCATION: remote" "full").job_title
        = "Undefined Role" ∧
    (parse_job_description_content
        "JOB TITLE: Senior Backend Engineer\nLOCATION: remote" "full").job_title
        = String.mk (pyStrip "Senior Backend Engineer".toList) :=
  ⟨(c8_title_from_section "LOCATION: remote" "full").1 (by decide),
   (c8_title_from_section "JOB TITLE: Senior Backend Engineer\nLOCATION: remote"
      "full").2 "Senior Backend Engineer".toList (by decide)⟩

/-! ## Lemmas: the coordinator loop -/

theorem coordLoop_scores (llm : String → ResumeContent → Except Unit String)
    (jd : String) (md : List (String × PyVal)) :
    ∀ (rs : List ResumeContent) (scores : List (String × ℚ)) (moves : List Placement),
    (coordLoop llm jd md rs scores moves).1 =
      rs.foldl (fun acc r => alistSet acc r.file_path (calculate_score llm jd r)) scores := by
  intro rs
  induction rs with
  | nil => intro scores moves; rfl
  | cons r rs ih =>
    intro scores moves
    simp only [coordLoop, List.foldl_cons]
    exact ih _ _

theorem coordLoop_moves (llm : String → ResumeContent → Except Unit String)
    (jd : String) (md : List (String × PyVal)) :
    ∀ (rs : List ResumeContent) (scores : List (String × ℚ)) (moves : List Placement),
    (coordLoop llm jd md rs scores moves).2 =
      moves ++ (rs.filter (fun r => 75 < calculate_score llm jd r)).map
        (fun r => { source := r.file_path, score := calculate_score llm jd r,
                    dest := (alistGet? md "output_dir").getD (.vStr "filtered_resumes") }) := by
  intro rs
  induction rs with
  | nil => intro scores moves; simp [coordLoop]
  | cons r rs ih =>
    intro scores moves
    simp only [coordLoop]
    rw [ih]
    by_cases hq : (75 : ℚ) < calculate_score llm jd r
    · rw [if_pos hq]
      rw [List.filter_cons_of_pos (by simpa using hq), List.map_cons]
      simp
    · rw [if_neg hq]
      rw [List.filter_cons_of_neg (by simpa using hq)]

theorem alistSet_append {m : List (String × ℚ)} {k : String} {x : ℚ}
    (h : m.any (fun p => p.1 = k) = false) :
    alistSet m k x = m ++ [(k, x)] := by
  unfold alistSet
  rw [if_neg (by simp [h])]

theorem fold_alistSet_map (f : ResumeContent → ℚ) :
    ∀ (rs : List ResumeContent) (acc : List (String × ℚ)),
    (∀ r ∈ rs, ∀ p ∈ acc, p.1 ≠ r.file_path) →
    (rs.map (fun r => r.file_path)).Nodup →
    rs.foldl (fun acc r => alistSet acc r.file_path (f r)) acc =
      acc ++ rs.map (fun r => (r.file_path, f r)) := by
  intro rs
  induction rs with
  | nil => intro acc _ _; simp
  | cons r rs ih =>
    intro acc hdisj hnodup
    simp only [List.foldl_cons]
    have hany : acc.any (fun p => p.1 = r.file_path) = false := by
      rw [List.any_eq_false]
      intro p hp
      simpa using hdisj r (List.mem_cons_self _ _) p hp
    rw [alistSet_append hany]
    rw [ih (acc ++ [(r.file_path, f r)]) ?_ (List.nodup_cons.mp (by simpa using hnodup)).2]
    · simp
    · intro r2 hr2 p hp
      rcases List.mem_append.mp hp with h | h
      · exact hdisj r2 (List.mem_cons_of_mem _ hr2) p h
      · simp only [List.mem_singleton] at h
        subst h
        have hhead : r.file_path ∉ rs.map (fun x => x.file_path) :=
          (List.nodup_cons.mp (by simpa using hnodup)).1
        intro he
        have he2 : r.file_path = r2.file_path := he
        rw [he2] at hhead
        exact hhead (List.mem_map.mpr ⟨r2, hr2, rfl⟩)

theorem coordinator_not_short (llm : String → ResumeContent → Except Unit String)
    (st : AgentState) (hjd : truthyOptStr st.jd_content = true)
    (hres : st.resumes ≠ []) :
    coordinator_process llm st =
      ({ st with
          scores := (coordLoop llm (st.jd_content.getD "") st.metadata st.resumes [] []).1,
          metadata := alistSet st.metadata "scoring_results"
            (scoringResultsVal st.resumes
              (coordLoop llm (st.jd_content.getD "") st.metadata st.resumes [] []).1) },
       (coordLoop llm (st.jd_content.getD "") st.metadata st.resumes [] []).2) := by
  unfold coordinator_process
  rw [if_neg]
  simp only [Bool.or_eq_true, Bool.not_eq_true', List.isEmpty_iff, not_or]
  exact ⟨by simp [hjd], hres⟩

theorem coordinator_scores_eq (llm : String → ResumeContent → Except Unit String)
    (st : AgentState) (hjd : truthyOptStr st.jd_content = true)
    (hres : st.resumes ≠ [])
    (hnodup : (st.resumes.map (fun r => r.file_path)).Nodup) :
    (coordinator_process llm st).1.scores =
      st.resumes.map (fun r =>
        (r.file_path, calculate_score llm (st.jd_content.getD "") r)) := by
  rw [coordinator_not_short llm st hjd hres]
  show (coordLoop llm (st.jd_content.getD "") st.metadata st.resumes [] []).1 = _
  rw [coordLoop_scores, fold_alistSet_map _ _ [] (by simp) hnodup]
  simp

theorem coordinator_placements_eq (llm : String → ResumeContent → Except Unit String)
    (st : AgentState) (hjd : truthyOptStr st.jd_content = true)
    (hres : st.resumes ≠ []) :
    (coordinator_process llm st).2 =
      (st.resumes.filter (fun r => 75 < calculate_score llm (st.jd_content.getD "") r)).map
        (fun r => { source := r.file_path,
                    score := calculate_score llm (st.jd_content.getD "") r,
                    dest := (alistGet? st.metadata "output_dir").getD (.vStr "filtered_resumes") }) := by
  rw [coordinator_not_short llm st hjd hres]
  show (coordLoop llm (st.jd_content.getD "") st.metadata st.resumes [] []).2 = _
  rw [coordLoop_moves]
  simp

theorem alistGet?_map_of_nodup (f : ResumeContent → ℚ) :
    ∀ (rs : List ResumeContent) (r : ResumeContent), r ∈ rs →
    (rs.map (fun x => x.file_path)).Nodup →
    alistGet? (rs.map (fun x => (x.file_path, f x))) r.file_path = some (f r) := by
  intro rs
  induction rs with
  | nil => intro r hr; simp at hr
  | cons x rs ih =>
    intro r hr hnodup
    rcases List.mem_cons.mp hr with h | h
    · subst h
      unfold alistGet?
      rw [List.map_cons, List.find?_cons_of_pos _ (by simp)]
      rfl
    · have hx : x.file_path ≠ r.file_path := by
        have hhead : x.file_path ∉ rs.map (fun y => y.file_path) :=
          (List.nodup_cons.mp (by simpa using hnodup)).1
        intro he
        exact hhead (he ▸ List.mem_map.mpr ⟨r, h, rfl⟩)
      unfold alistGet?
      rw [List.map_cons, List.find?_cons_of_neg _ (by simpa using hx)]
      exact ih r h (List.nodup_cons.mp (by simpa using hnodup)).2

/-- C5: when `score_and_move` is reached with no `jd_content` or an
empty résumé list, `Coordinator.process` returns the incoming state with
`scores` replaced by the empty mapping and every other field unchanged,
and performs no placement.  (The whole stage body sits inside
`try/except`, so — as the total embedding reflects — no exception crosses
the pipeline boundary.) -/
theorem c5_missing_inputs_short_circuit
    (llm : String → ResumeContent → Except Unit String) (st : AgentState)
    (h : st.jd_content = none ∨ st.resumes = []) :
    coordinator_process llm st = ({ st with scores := [] }, []) := by
  unfold coordinator_process
  rw [if_pos]
  rcases h with h | h
  · simp [h, truthyOptStr]
  · simp [h]

/-- Witness for C5 at a concrete empty state. -/
theorem c5_missing_inputs_short_circuit_witness :
    coordinator_process (fun _ _ => Except.ok "Score: 90/100")
        { jd_content := none, resumes := [⟨"t", "r.pdf", none⟩] }
      = ({ jd_content := none, resumes := [⟨"t", "r.pdf", none⟩], scores := [] }, []) :=
  c5_missing_inputs_short_circuit _ _ (Or.inl rfl)

/-- C4: if the rating call raises for some résumé, that résumé's
recorded score is exactly `0.0`; every résumé of the batch gets its own
parsed score recorded under its `file_path`, and the batch completes with
one entry per résumé. -/
theorem c4_rating_failure_isolated
    (llm : String → ResumeContent → Except Unit String) (st : AgentState)
    (hjd : truthyOptStr st.jd_content = true) (hres : st.resumes ≠ [])
    (hnodup : (st.resumes.map (fun r => r.file_path)).Nodup) :
    ((coordinator_process llm st).1.scores.length = st.resumes.length) ∧
    (∀ r ∈ st.resumes,
      alistGet? (coordinator_process llm st).1.scores r.file_path =
        some (calculate_score llm (st.jd_content.getD "") r)) ∧
    (∀ r ∈ st.resumes, llm (st.jd_content.getD "") r = .error () →
      alistGet? (coordinator_process llm st).1.scores r.file_path = some 0) := by
  have hsc := coordinator_scores_eq llm st hjd hres hnodup
  refine ⟨by rw [hsc]; simp, ?_, ?_⟩
  · intro r hr
    rw [hsc]
    exact alistGet?_map_of_nodup _ st.resumes r hr hnodup
  · intro r hr herr
    rw [hsc, alistGet?_map_of_nodup _ st.resumes r hr hnodup]
    unfold calculate_score
    rw [herr]

/-- Witness for C4: a batch of three where the rating call raises on the
second résumé — it records `0.0`, the others their parsed `80.0`. -/
theorem c4_rating_failure_isolated_witness :
    ((coordinator_process
        (fun _ r => if r.file_path = "r2.pdf" then Except.error ()
                    else Except.ok "Score: 80/100")
        { jd_content := some "jd",
          resumes := [⟨"t1", "r1.pdf", none⟩, ⟨"t2", "r2.pdf", none⟩,
                      ⟨"t3", "r3.pdf", none⟩] }).1.scores.length = 3) ∧
    alistGet? (coordinator_process
        (fun _ r => if r.file_path = "r2.pdf" then Except.error ()
                    else Except.ok "Score: 80/100")
        { jd_content := some "jd",
          resumes := [⟨"t1", "r1.pdf", none⟩, ⟨"t2", "r2.pdf", none⟩,
                      ⟨"t3", "r3.pdf", none⟩] }).1.scores "r2.pdf" = some 0 ∧
    alistGet? (coordinator_process
        (fun _ r => if r.file_path = "r2.pdf" then Except.error ()
                    else Except.ok "Score: 80/100")
        { jd_content := some "jd",
          resumes := [⟨"t1", "r1.pdf", none⟩, ⟨"t2", "r2.pdf", none⟩,
                      ⟨"t3", "r3.pdf", none⟩] }).1.scores "r1.pdf" = some 80 := by
  have h := c4_rating_failure_isolated
      (fun _ r => if r.file_path = "r2.pdf" then Except.error ()
                  else Except.ok "Score: 80/100")
      { jd_content := some "jd",
        resumes := [⟨"t1", "r1.pdf", none⟩, ⟨"t2", "r2.pdf", none⟩,
                    ⟨"t3", "r3.pdf", none⟩] }
      (by decide) (by simp) (by decide)
  refine ⟨h.1, ?_, ?_⟩
  · exact h.2.2 ⟨"t2", "r2.pdf", none⟩ (by simp) rfl
  · rw [h.2.1 ⟨"t1", "r1.pdf", none⟩ (by simp)]
    decide

/-- C1 counterexample: with configured `score_threshold = 80` and a
résumé whose rating response is "Score: 80/100": the placement IS
performed (the code tests `score > 75`, a hard-coded constant, and
`80 > 75`), although `80 > 80` is false — so "placement iff
score > threshold" fails — and the qualified count is `1` (the code
counts `score >= threshold`) although the claimed strict comparison
gives `0`. -/
theorem c1_threshold_counterexample :
    ((coordinator_process (fun _ _ => Except.ok "Score: 80/100")
        { jd_content := some "jd", resumes := [⟨"t1", "r1.pdf", none⟩],
          metadata := [("score_threshold", PyVal.vFloat 80)] }).2.map
        (fun p => (p.source, p.score))) = [("r1.pdf", (80 : ℚ))] ∧
    qualifiedCount (coordinator_process (fun _ _ => Except.ok "Score: 80/100")
        { jd_content := some "jd", resumes := [⟨"t1", "r1.pdf", none⟩],
          metadata := [("score_threshold", PyVal.vFloat 80)] }).1.scores 80 = 1 ∧
    ¬((80 : ℚ) > 80) ∧
    pyNumVal ((alistGet? (validate_threshold [("score_threshold", PyVal.vFloat 80)])
        "score_threshold").getD (PyVal.vFloat 75)) = 80 := by
  refine ⟨by decide, by decide, by norm_num, by decide⟩

/-- C1 amended: for every batch the placement side effect is
performed exactly for the résumés whose parsed score is strictly greater
than the hard-coded constant `75` (the configured `score_threshold` is
not consulted for placement), in batch order; and the qualified count
computed at the pipeline end counts `score >= threshold` (non-strict)
against the validated metadata threshold. -/
theorem c1_placement_hardcoded_count_nonstrict
    (llm : String → ResumeContent → Except Unit String) (st : AgentState)
    (hjd : truthyOptStr st.jd_content = true) (hres : st.resumes ≠ [])
    (hnodup : (st.resumes.map (fun r => r.file_path)).Nodup) :
    ((coordinator_process llm st).2 =
      (st.resumes.filter (fun r => 75 < calculate_score llm (st.jd_content.getD "") r)).map
        (fun r => { source := r.file_path,
                    score := calculate_score llm (st.jd_content.getD "") r,
                    dest := (alistGet? st.metadata "output_dir").getD
                      (.vStr "filtered_resumes") })) ∧
    (∀ t : ℚ, qualifiedCount (coordinator_process llm st).1.scores t =
      (st.resumes.filter (fun r =>
        t ≤ calculate_score llm (st.jd_content.getD "") r)).length) := by
  refine ⟨coordinator_placements_eq llm st hjd hres, ?_⟩
  intro t
  rw [coordinator_scores_eq llm st hjd hres hnodup]
  unfold qualifiedCount
  rw [List.filter_map, List.length_map]
  rfl

/-- Witness for C1 (amended) at the concrete threshold-80 input. -/
theorem c1_placement_hardcoded_count_nonstrict_witness :
    ((coordinator_process (fun _ _ => Except.ok "Score: 80/100")
        { jd_content := some "jd", resumes := [⟨"t1", "r1.pdf", none⟩],
          metadata := [("score_threshold", PyVal.vFloat 80)] }).2.length = 1) ∧
    qualifiedCount (coordinator_process (fun _ _ => Except.ok "Score: 80/100")
        { jd_content := some "jd", resumes := [⟨"t1", "r1.pdf", none⟩],
          metadata := [("score_threshold", PyVal.vFloat 80)] }).1.scores 80 = 1 := by
  have h := c1_placement_hardcoded_count_nonstrict
      (fun _ _ => Except.ok "Score: 80/100")
      { jd_content := some "jd", resumes := [⟨"t1", "r1.pdf", none⟩],
        metadata := [("score_threshold", PyVal.vFloat 80)] }
      (by decide) (by simp) (by decide)
  constructor
  · rw [h.1]
    decide
  · rw [h.2 80]
    decide

/-- C3: the score parser tries its five patterns in the fixed order
("Score: N/100", "Final Score: N", "N out of 100", "N/100", last
standalone integer); the first pattern with a match anywhere in the text
wins and its captured number is clamped into `[0, 100]`; `0.0` when no
pattern matches.  In particular "Score: 92/100" ↦ 92.0,
"Final Score: 110" ↦ 100.0 (clamped), "no numbers here" ↦ 0.0, and every
result lies in `[0, 100]`. -/
theorem c3_score_parser_contract :
    parse_score_from_response "Score: 92/100" = 92 ∧
    parse_score_from_response "Final Score: 110" = 100 ∧
    parse_score_from_response "no numbers here" = 0 ∧
    (∀ (t : String) (n : Nat), reSearch p1At t.toList = some n →
      parse_score_from_response t = clampScore n) ∧
    (∀ t : String, 0 ≤ parse_score_from_response t ∧
      parse_score_from_response t ≤ 100) := by
  refine ⟨by decide, by decide, by decide, ?_, ?_⟩
  · intro t n h
    unfold parse_score_from_response
    simp only [scorePatterns, firstPatternMatch, h]
  · intro t
    unfold parse_score_from_response
    cases firstPatternMatch scorePatterns t.toList with
    | none => norm_num
    | some n =>
      unfold clampScore
      constructor
      · exact le_max_left 0 _
      · exact max_le (by norm_num) (min_le_left _ _)

/-- Witness for C3: the first pattern matches "Score: 92/100" with group
92, so the parser returns `clampScore 92`. -/
theorem c3_score_parser_contract_witness :
    parse_score_from_response "Score: 92/100" = clampScore 92 :=
  c3_score_parser_contract.2.2.2.1 "Score: 92/100" 92 (by decide)

/-- C2 (code bug): `JDProcessor.process` returns its input
state unchanged for every file-read oracle and every state: its return
statement `AgentState(**state.model_dump(), jd_content=..., metadata=...)`
passes `jd_content` and `metadata` twice, which raises `TypeError` before
the new state is built, and the surrounding `except` returns the old
state — so `jd_content` is never set and `metadata` never gains a
`parsed_jd` entry.  `ResumeProcessor.process`, by contrast, replaces only
`resumes` and preserves `jd_content` and `metadata`. -/
theorem c2_parse_jd_stage_noop :
    (∀ (readJD : String → Option String) (st : AgentState),
      jd_processor_process readJD st = st) ∧
    (∀ (batch : Except Unit (Option (List (String × String))))
       (loadMeta : String → Option (List (String × PyVal))) (st : AgentState),
      (resume_processor_process batch loadMeta st).jd_content = st.jd_content ∧
      (resume_processor_process batch loadMeta st).metadata = st.metadata) := by
  constructor
  · intro readJD st
    unfold jd_processor_process
    cases halist : alistGet? st.metadata "jd_path" with
    | none => rfl
    | some v =>
      cases v with
      | vStr path =>
        dsimp only
        cases hr : readJD path with
        | none => rfl
        | some jd =>
          dsimp only
          rw [if_pos (by decide : hasDupKey (modelDumpKeys ++ ["jd_content", "metadata"]) = true)]
      | vNone => rfl
      | vBool b => rfl
      | vInt i => rfl
      | vFloat q => rfl
      | vList l => rfl
      | vDict d => rfl
  · intro batch loadMeta st
    cases batch with
    | error e => exact ⟨rfl, rfl⟩
    | ok o =>
      cases o with
      | none => exact ⟨rfl, rfl⟩
      | some files => exact ⟨rfl, rfl⟩

end ATS
